import Mathlib

/-!
Verification development for the candidate-selection core of the photo-ocr
repository (src/main.py, class GolfOCR).

Modelling conventions:
* Python strings are modelled as `List Char`; the regex character class
  `\d` is modelled as `Char.isDigit` (ASCII decimal digits), and
  `str.strip()` as removal of whitespace characters from both ends.
* Python floats are modelled exactly: coordinates and confidences are
  rationals, and the score of a candidate, `distance + decimal_bonus`
  (where `distance = math.hypot dx dy`) is represented exactly by the pair
  `(distSq, bonus)` with real value `Real.sqrt distSq + bonus`.
  The comparison of two scores is decided exactly by rational
  arithmetic (`sqrtAddLE`), which is proved to agree with the real-number
  comparison (`sqrtAddLE_iff`).
* `list.sort(key=lambda x: x[0])` is a stable sort by score; it is
  modelled by the stable insertion sort `iSort` with the score comparator.
* Fallible steps (`re.search` returning no match, validation raising) are
  modelled with `Option` / `Except`.
-/

/-- Whitespace characters removed by Python `str.strip()` (ASCII fragment). -/
def isSpaceChar (c : Char) : Bool :=
  c == ' ' || c == '\t' || c == '\n' || c == '\r' || c == '\x0b' || c == '\x0c'

/-- Model of Python `str.strip()`: drop whitespace from both ends. -/
def pyStrip (s : List Char) : List Char :=
  ((s.dropWhile isSpaceChar).reverse.dropWhile isSpaceChar).reverse

/-- The regex character class `[+-]`. -/
def isSign (c : Char) : Bool :=
  c == '+' || c == '-'

/-- Match the regex fragment `\d+\.?\d*` at the start of `s`
(greedy digits, then an optional dot, then greedy digits). -/
def matchBody (s : List Char) : Option (List Char) :=
  let ds := s.takeWhile Char.isDigit
  if ds = [] then none
  else
    match s.dropWhile Char.isDigit with
    | [] => some ds
    | c :: r2 => if c = '.' then some (ds ++ '.' :: r2.takeWhile Char.isDigit) else some ds

/-- Match the regex `[+-]?\d+\.?\d*` anchored at the start of `s`.
A sign is consumed only when a digit follows it (otherwise the regex
backtracks to the empty sign and then `\d+` fails on the sign character). -/
def matchNumAt (s : List Char) : Option (List Char) :=
  match s with
  | [] => none
  | c :: rest => if isSign c then (matchBody rest).map (fun b => c :: b) else matchBody s

/-- Model of the Python regex search for `[+-]?\d+\.?\d*` in `s`: the match at the leftmost
position where the pattern can match. -/
def findNum : List Char → Option (List Char)
  | [] => none
  | c :: rest =>
    match matchNumAt (c :: rest) with
    | some m => some m
    | none => findNum rest

/-- The numeric-token extraction performed on the text of one detection in
`extract_best_number` (src/main.py lines 89-104): strip the text, skip it
when it has no digit, take the first `[+-]?\d+\.?\d*` match, and prepend
`+` (after stripping leading signs) when the original text contains a `+`
that the match did not pick up. -/
def extract_number_token (text : List Char) : Option (List Char) :=
  let clean_text := pyStrip text
  if clean_text.any Char.isDigit = false then none
  else
    match findNum clean_text with
    | none => none
    | some num_str =>
      if clean_text.contains '+' = true ∧ ¬ num_str.head? = some '+' then
        some ('+' :: num_str.dropWhile isSign)
      else some num_str

/-- Full match against `\d+\.?\d*` (used to state the output-shape claim). -/
def numBody (s : List Char) : Bool :=
  !(s.takeWhile Char.isDigit).isEmpty &&
    (match s.dropWhile Char.isDigit with
     | [] => true
     | c :: r2 => c == '.' && r2.all Char.isDigit)

/-- Full match against `[+-]?\d+\.?\d*`: an optional single leading sign,
one or more digits, an optional dot, zero or more digits. -/
def isNumToken (s : List Char) : Bool :=
  match s with
  | [] => false
  | c :: rest => if isSign c then numBody rest else numBody s

/-- One EasyOCR detection `(bbox, text, conf)`: a quadrilateral given by
corner points, the recognized text and a confidence value. -/
structure Detection where
  bbox : List (ℚ × ℚ)
  text : List Char
  conf : ℚ

/-- The text-center of a detection: arithmetic mean of the corner coordinates
(`sum(x_coords) / 4, sum(y_coords) / 4` in src/main.py lines 107-109). -/
def text_center (bbox : List (ℚ × ℚ)) : ℚ × ℚ :=
  ((bbox.map Prod.fst).sum / 4, (bbox.map Prod.snd).sum / 4)

/-- Squared Euclidean distance between two points; `math.hypot` of the
coordinate differences is the square root of this value. -/
def distSq (p q : ℚ × ℚ) : ℚ :=
  (p.1 - q.1) ^ 2 + (p.2 - q.2) ^ 2

/-- A surviving candidate `(score, num_str, conf)` of src/main.py line 117.
The float score `distance + decimal_bonus` is represented exactly by
`(distSq, bonus)`; its value is `Real.sqrt distSq + bonus`. -/
structure Candidate where
  distSq : ℚ
  bonus : ℚ
  num_str : List Char
  conf : ℚ

/-- The loop body of `extract_best_number` for one detection
(src/main.py lines 88-117): extract the numeric token (skipping the
detection when there is none) and score it by distance from the region
center plus the decimal-preference bonus. -/
def mkCandidate (box_center : ℚ × ℚ) (expect_decimal : Bool) (det : Detection) :
    Option Candidate :=
  (extract_number_token det.text).map fun num_str =>
    ⟨distSq (text_center det.bbox) box_center,
     if expect_decimal && num_str.contains '.' then -10 else 0,
     num_str, det.conf⟩

/-- The `candidates` list accumulated by the loop of `extract_best_number`. -/
def candidatesOf (ocr_results : List Detection) (box_center : ℚ × ℚ)
    (expect_decimal : Bool) : List Candidate :=
  ocr_results.filterMap (mkCandidate box_center expect_decimal)

/-- Decide `Real.sqrt q1 ≤ Real.sqrt q2 + c` by rational arithmetic
(for `0 ≤ q1` and `0 ≤ q2`); correctness is `sqrtAddLE_iff`. -/
def sqrtAddLE (q1 c q2 : ℚ) : Bool :=
  if 0 ≤ c then
    if q1 - q2 - c ^ 2 ≤ 0 then true
    else decide ((q1 - q2 - c ^ 2) ^ 2 ≤ 4 * c ^ 2 * q2)
  else
    if q2 - q1 - c ^ 2 < 0 then false
    else decide (4 * c ^ 2 * q1 ≤ (q2 - q1 - c ^ 2) ^ 2)

/-- The comparator used to sort candidates: exact decision of
`score a ≤ score b`, i.e. `sqrt a.distSq + a.bonus ≤ sqrt b.distSq + b.bonus`. -/
def candLE (a b : Candidate) : Bool :=
  sqrtAddLE a.distSq (b.bonus - a.bonus) b.distSq

/-- Insert into a sorted list, before the first element not below `a`
(keeps equal-score elements in input order). -/
def oInsert (le : α → α → Bool) (a : α) : List α → List α
  | [] => [a]
  | b :: l => if le a b then a :: b :: l else b :: oInsert le a l

/-- Stable insertion sort, modelling the stable Python list sort. -/
def iSort (le : α → α → Bool) : List α → List α
  | [] => []
  | a :: l => oInsert le a (iSort le l)

/-- The first element of `l` that compares `le` to the running minimum of
the rest; `head?` of the stable sort (`head_iSort`). -/
def firstMin (le : α → α → Bool) : List α → Option α
  | [] => none
  | a :: l =>
    match firstMin le l with
    | none => some a
    | some m => if le a m then some a else some m

/-- `GolfOCR.extract_best_number` (src/main.py lines 73-127): build the
candidate list, return `""` when it is empty, otherwise sort by score
(stable, lower is better) and return the token of the first candidate. -/
def extract_best_number (ocr_results : List Detection) (box_center : ℚ × ℚ)
    (expect_decimal : Bool) : List Char :=
  match (iSort candLE (candidatesOf ocr_results box_center expect_decimal)).head? with
  | none => []
  | some best => best.num_str

/-- The real-valued distance of a candidate from the region center. -/
noncomputable def Candidate.distance (c : Candidate) : ℝ :=
  Real.sqrt (c.distSq : ℝ)

/-- The real-valued score of a candidate (the float `score` of the source). -/
noncomputable def Candidate.score (c : Candidate) : ℝ :=
  c.distance + (c.bonus : ℝ)

/-- One metric entry of the configuration file: an optional `bbox` value
(`none` models a missing key) and the `expect_decimal` flag. -/
structure MetricConfig where
  bbox : Option (List Int)
  expect_decimal : Bool
deriving DecidableEq

/-- A parsed configuration file: an optional `metrics` mapping
(`none` models a missing section). -/
structure Config where
  metrics : Option (List (String × MetricConfig))
deriving DecidableEq

/-- The required metric names of `GolfOCR._load_config`. -/
def required_metrics : List String :=
  ["DISTANCE_TO_PIN", "CARRY", "FROM_PIN", "STROKES_GAINED"]

/-- The per-metric validation of `GolfOCR._load_config`
(src/main.py lines 60-66). -/
def validate_metric (metrics : List (String × MetricConfig)) (metric : String) :
    Except String Unit :=
  match metrics.lookup metric with
  | none => Except.error ("Missing required metric in configuration: " ++ metric)
  | some mc =>
    match mc.bbox with
    | none => Except.error ("Missing bbox for metric: " ++ metric)
    | some b =>
      if b.length ≠ 4 then
        Except.error ("Invalid bbox format for " ++ metric ++ ": must be x, y, width, height")
      else Except.ok ()

/-- The validation loop over the required metrics, with early abort. -/
def validate_metrics (metrics : List (String × MetricConfig)) :
    List String → Except String Unit
  | [] => Except.ok ()
  | m :: rest =>
    match validate_metric metrics m with
    | Except.error e => Except.error e
    | Except.ok _ => validate_metrics metrics rest

/-- `GolfOCR._load_config` after JSON parsing (src/main.py lines 54-71):
check that the `metrics` section exists and that every required metric has a
4-element bbox; on success the configuration is returned unchanged. -/
def load_config (config : Config) : Except String Config :=
  match config.metrics with
  | none => Except.error "Configuration file must contain a metrics section"
  | some metrics =>
    match validate_metrics metrics required_metrics with
    | Except.error e => Except.error e
    | Except.ok _ => Except.ok config

/-- A required metric that passes validation: present, with a 4-element bbox. -/
def goodMetric (metrics : List (String × MetricConfig)) (m : String) : Prop :=
  ∃ mc b, metrics.lookup m = some mc ∧ mc.bbox = some b ∧ b.length = 4

/-- Erase the confidence field of a candidate (used to state that the
selection never depends on confidence). -/
def stripConf (c : Candidate) : Candidate :=
  ⟨c.distSq, c.bonus, c.num_str, 0⟩

example : extract_number_token ("+ 2.5 yds".data) = some ("+2.5".data) := by decide
example : extract_number_token (" 123 ft".data) = some ("123".data) := by decide
example : extract_number_token ("ft".data) = none := by decide
example : extract_number_token ("45.6".data) = some ("45.6".data) := by decide
example : findNum ("1..2".data) = some ("1.".data) := by decide
example : findNum ("a+b-5".data) = some ("-5".data) := by decide
example : sqrtAddLE 8 (-10) 2888 = true := by norm_num [sqrtAddLE]
example : sqrtAddLE 64 10 25 = true := by norm_num [sqrtAddLE]
example : sqrtAddLE 64 (-10 : ℚ) 25 = false := by norm_num [sqrtAddLE]

theorem head_iSort (le : α → α → Bool) (l : List α) :
    (iSort le l).head? = firstMin le l := by
  induction l with
  | nil => rfl
  | cons a t ih =>
    show (oInsert le a (iSort le t)).head? = _
    cases hs : iSort le t with
    | nil =>
      have h2 : firstMin le t = none := by rw [← ih, hs]; rfl
      simp [oInsert, firstMin, h2]
    | cons b tb =>
      have h2 : firstMin le t = some b := by rw [← ih, hs]; rfl
      simp only [firstMin, h2, oInsert]
      by_cases hab : le a b = true
      · simp [hab]
      · simp [hab]

theorem firstMin_mem (le : α → α → Bool) (l : List α) (a : α)
    (h : firstMin le l = some a) : a ∈ l := by
  induction l with
  | nil => simp [firstMin] at h
  | cons b t ih =>
    cases hm : firstMin le t with
    | none =>
      simp only [firstMin, hm, Option.some.injEq] at h
      subst h
      exact List.mem_cons_self b t
    | some m =>
      simp only [firstMin, hm] at h
      by_cases hbm : le b m = true
      · rw [if_pos hbm] at h
        simp only [Option.some.injEq] at h
        subst h
        exact List.mem_cons_self b t
      · rw [if_neg hbm] at h
        simp only [Option.some.injEq] at h
        subst h
        exact List.mem_cons_of_mem b (ih hm)

theorem firstMin_eq (le : α → α → Bool) (l : List α) (i : ℕ) (hi : i < l.length)
    (hmin : ∀ b ∈ l, le (l.get ⟨i, hi⟩) b = true)
    (hfirst : ∀ k (hk : k < i), le (l.get ⟨k, by omega⟩) (l.get ⟨i, hi⟩) = false) :
    firstMin le l = some (l.get ⟨i, hi⟩) := by
  induction l generalizing i with
  | nil => simp at hi
  | cons a t ih =>
    cases i with
    | zero =>
      simp only [List.get] at hmin ⊢
      cases hm : firstMin le t with
      | none => simp [firstMin, hm]
      | some m =>
        have hmem : m ∈ t := firstMin_mem le t m hm
        have hle : le a m = true := hmin m (List.mem_cons_of_mem a hmem)
        simp [firstMin, hm, hle]
    | succ j =>
      have hj : j < t.length := by simpa using hi
      have hget : (a :: t).get ⟨j + 1, hi⟩ = t.get ⟨j, hj⟩ := rfl
      have hft : firstMin le t = some (t.get ⟨j, hj⟩) := by
        apply ih j hj
        · intro b hb
          have := hmin b (List.mem_cons_of_mem a hb)
          rwa [hget] at this
        · intro k hk
          have := hfirst (k + 1) (by omega)
          rwa [hget] at this
      have hna : le a (t.get ⟨j, hj⟩) = false := by
        have := hfirst 0 (by omega)
        rwa [hget] at this
      rw [hget]
      simp only [firstMin, hft]
      have hna2 : ¬ (le a (t.get ⟨j, hj⟩) = true) := by simpa using hna
      rw [if_neg hna2]

theorem extract_eq (dets : List Detection) (bc : ℚ × ℚ) (ed : Bool) :
    extract_best_number dets bc ed =
      match firstMin candLE (candidatesOf dets bc ed) with
      | none => []
      | some c => c.num_str := by
  unfold extract_best_number
  rw [head_iSort]

theorem sqrtAddLE_iff (q1 c q2 : ℚ) (h1 : 0 ≤ q1) (h2 : 0 ≤ q2) :
    sqrtAddLE q1 c q2 = true ↔
      Real.sqrt (q1 : ℝ) ≤ Real.sqrt (q2 : ℝ) + (c : ℝ) := by
  have h1R : (0:ℝ) ≤ (q1:ℝ) := by exact_mod_cast h1
  have h2R : (0:ℝ) ≤ (q2:ℝ) := by exact_mod_cast h2
  have hs1 : Real.sqrt (q1:ℝ) ^ 2 = (q1:ℝ) := Real.sq_sqrt h1R
  have hs2 : Real.sqrt (q2:ℝ) ^ 2 = (q2:ℝ) := Real.sq_sqrt h2R
  have hs1n : 0 ≤ Real.sqrt (q1:ℝ) := Real.sqrt_nonneg _
  have hs2n : 0 ≤ Real.sqrt (q2:ℝ) := Real.sqrt_nonneg _
  set s1 := Real.sqrt (q1:ℝ) with hs1d
  set s2 := Real.sqrt (q2:ℝ) with hs2d
  unfold sqrtAddLE
  by_cases hc : (0:ℚ) ≤ c
  · have hcR : (0:ℝ) ≤ (c:ℝ) := by exact_mod_cast hc
    rw [if_pos hc]
    by_cases hL : q1 - q2 - c ^ 2 ≤ 0
    · rw [if_pos hL]
      have hLR : (q1:ℝ) - (q2:ℝ) - (c:ℝ)^2 ≤ 0 := by exact_mod_cast hL
      refine iff_of_true rfl ?_
      have hsq : s1^2 ≤ (s2 + c)^2 := by nlinarith [mul_nonneg hcR hs2n]
      exact le_of_pow_le_pow_left₀ two_ne_zero (add_nonneg hs2n hcR) hsq
    · rw [if_neg hL]
      rw [decide_eq_true_eq]
      have hLR : (0:ℝ) < (q1:ℝ) - (q2:ℝ) - (c:ℝ)^2 := by exact_mod_cast not_le.mp hL
      constructor
      · intro hP
        have hPR : ((q1:ℝ) - (q2:ℝ) - (c:ℝ)^2)^2 ≤ 4 * (c:ℝ)^2 * (q2:ℝ) := by
          exact_mod_cast hP
        have h2cs : (0:ℝ) ≤ 2 * (c:ℝ) * s2 := by positivity
        have hL2 : (q1:ℝ) - (q2:ℝ) - (c:ℝ)^2 ≤ 2 * (c:ℝ) * s2 := by
          have hsq : ((q1:ℝ) - (q2:ℝ) - (c:ℝ)^2)^2 ≤ (2 * (c:ℝ) * s2)^2 := by nlinarith
          exact le_of_pow_le_pow_left₀ two_ne_zero h2cs hsq
        have hsq : s1^2 ≤ (s2 + c)^2 := by nlinarith
        exact le_of_pow_le_pow_left₀ two_ne_zero (add_nonneg hs2n hcR) hsq
      · intro hle
        have hsq : s1^2 ≤ (s2 + (c:ℝ))^2 := pow_le_pow_left₀ hs1n hle 2
        have hL2 : (q1:ℝ) - (q2:ℝ) - (c:ℝ)^2 ≤ 2 * (c:ℝ) * s2 := by nlinarith
        have hsq2 : ((q1:ℝ) - (q2:ℝ) - (c:ℝ)^2)^2 ≤ (2 * (c:ℝ) * s2)^2 :=
          pow_le_pow_left₀ (le_of_lt hLR) hL2 2
        have hfin : ((q1:ℝ) - (q2:ℝ) - (c:ℝ)^2)^2 ≤ 4 * (c:ℝ)^2 * (q2:ℝ) := by nlinarith
        exact_mod_cast hfin
  · have hcR : (c:ℝ) < 0 := by exact_mod_cast not_le.mp hc
    rw [if_neg hc]
    by_cases hR : q2 - q1 - c^2 < 0
    · rw [if_pos hR]
      have hRR : (q2:ℝ) - (q1:ℝ) - (c:ℝ)^2 < 0 := by exact_mod_cast hR
      refine iff_of_false (by simp) ?_
      intro hle
      have h0 : 0 ≤ s1 - (c:ℝ) := by linarith
      have hsq : (s1 - (c:ℝ))^2 ≤ s2^2 := pow_le_pow_left₀ h0 (by linarith) 2
      nlinarith [mul_nonneg (by linarith : (0:ℝ) ≤ -2*(c:ℝ)) hs1n]
    · rw [if_neg hR]
      rw [decide_eq_true_eq]
      have hRR : (0:ℝ) ≤ (q2:ℝ) - (q1:ℝ) - (c:ℝ)^2 := by exact_mod_cast not_lt.mp hR
      constructor
      · intro hP
        have hPR : 4 * (c:ℝ)^2 * (q1:ℝ) ≤ ((q2:ℝ) - (q1:ℝ) - (c:ℝ)^2)^2 := by
          exact_mod_cast hP
        have hms : (0:ℝ) ≤ -2*(c:ℝ)*s1 := mul_nonneg (by linarith) hs1n
        have h1' : -2*(c:ℝ)*s1 ≤ (q2:ℝ) - (q1:ℝ) - (c:ℝ)^2 := by
          have hsq : (-2*(c:ℝ)*s1)^2 ≤ ((q2:ℝ) - (q1:ℝ) - (c:ℝ)^2)^2 := by nlinarith
          exact le_of_pow_le_pow_left₀ two_ne_zero hRR hsq
        have hsq : (s1 - (c:ℝ))^2 ≤ s2^2 := by nlinarith
        have hfin : s1 - (c:ℝ) ≤ s2 := le_of_pow_le_pow_left₀ two_ne_zero hs2n hsq
        linarith
      · intro hle
        have h0 : 0 ≤ s1 - (c:ℝ) := by linarith
        have hsq : (s1 - (c:ℝ))^2 ≤ s2^2 := pow_le_pow_left₀ h0 (by linarith) 2
        have h1' : -2*(c:ℝ)*s1 ≤ (q2:ℝ) - (q1:ℝ) - (c:ℝ)^2 := by nlinarith
        have hms : (0:ℝ) ≤ -2*(c:ℝ)*s1 := mul_nonneg (by linarith) hs1n
        have hsq2 : (-2*(c:ℝ)*s1)^2 ≤ ((q2:ℝ) - (q1:ℝ) - (c:ℝ)^2)^2 :=
          pow_le_pow_left₀ hms h1' 2
        have hfin : 4 * (c:ℝ)^2 * (q1:ℝ) ≤ ((q2:ℝ) - (q1:ℝ) - (c:ℝ)^2)^2 := by nlinarith
        exact_mod_cast hfin

theorem candLE_iff (a b : Candidate) (ha : 0 ≤ a.distSq) (hb : 0 ≤ b.distSq) :
    candLE a b = true ↔ a.score ≤ b.score := by
  unfold candLE
  rw [sqrtAddLE_iff _ _ _ ha hb]
  unfold Candidate.score Candidate.distance
  push_cast
  constructor <;> intro h <;> linarith

theorem distSq_nonneg (p q : ℚ × ℚ) : 0 ≤ distSq p q := by
  unfold distSq; positivity

theorem mkCandidate_inv (bc : ℚ × ℚ) (ed : Bool) (d : Detection) (c : Candidate)
    (h : mkCandidate bc ed d = some c) :
    ∃ n, extract_number_token d.text = some n ∧
      c = ⟨distSq (text_center d.bbox) bc,
           if ed && n.contains '.' then -10 else 0, n, d.conf⟩ := by
  unfold mkCandidate at h
  rcases Option.map_eq_some'.mp h with ⟨n, hn, hc⟩
  exact ⟨n, hn, hc.symm⟩

theorem mem_candidatesOf (dets : List Detection) (bc : ℚ × ℚ) (ed : Bool)
    (c : Candidate) (h : c ∈ candidatesOf dets bc ed) :
    ∃ d ∈ dets, mkCandidate bc ed d = some c := by
  unfold candidatesOf at h
  rcases List.mem_filterMap.mp h with ⟨d, hd, hc⟩
  exact ⟨d, hd, hc⟩

theorem candidatesOf_distSq_nonneg (dets : List Detection) (bc : ℚ × ℚ) (ed : Bool)
    (c : Candidate) (h : c ∈ candidatesOf dets bc ed) : 0 ≤ c.distSq := by
  rcases mem_candidatesOf dets bc ed c h with ⟨d, _, hc⟩
  rcases mkCandidate_inv bc ed d c hc with ⟨n, _, hcc⟩
  rw [hcc]
  exact distSq_nonneg _ _

theorem space_not_digit (c : Char) (h : isSpaceChar c = true) : c.isDigit = false := by
  unfold isSpaceChar at h
  simp only [Bool.or_eq_true, beq_iff_eq] at h
  rcases h with ((((h | h) | h) | h) | h) | h <;> subst h <;> decide

theorem digit_not_sign (c : Char) (h : c.isDigit = true) : isSign c = false := by
  unfold isSign
  rcases eq_or_ne c '+' with rfl | h1
  · exact absurd h (by decide)
  rcases eq_or_ne c '-' with rfl | h2
  · exact absurd h (by decide)
  simp [h1, h2]

theorem digit_not_dot (c : Char) (h : c.isDigit = true) : ¬ c = '.' := by
  intro hc
  subst hc
  exact absurd h (by decide)

theorem takeWhile_all (p : α → Bool) (l : List α) : (l.takeWhile p).all p = true := by
  induction l with
  | nil => rfl
  | cons a t ih =>
    by_cases h : p a = true
    · simp [List.takeWhile_cons, h, ih]
    · simp [List.takeWhile_cons, h]

theorem takeWhile_eq_self (p : α → Bool) (l : List α) (h : l.all p = true) :
    l.takeWhile p = l := by
  induction l with
  | nil => rfl
  | cons a t ih =>
    simp only [List.all_cons, Bool.and_eq_true] at h
    simp [List.takeWhile_cons, h.1, ih h.2]

theorem dropWhile_eq_nil (p : α → Bool) (l : List α) (h : l.all p = true) :
    l.dropWhile p = [] := by
  induction l with
  | nil => rfl
  | cons a t ih =>
    simp only [List.all_cons, Bool.and_eq_true] at h
    simp [List.dropWhile_cons, h.1, ih h.2]

theorem takeWhile_append_all (p : α → Bool) (l1 l2 : List α) (h : l1.all p = true) :
    (l1 ++ l2).takeWhile p = l1 ++ l2.takeWhile p := by
  induction l1 with
  | nil => simp
  | cons a t ih =>
    simp only [List.all_cons, Bool.and_eq_true] at h
    simp [List.takeWhile_cons, h.1, ih h.2]

theorem dropWhile_append_all (p : α → Bool) (l1 l2 : List α) (h : l1.all p = true) :
    (l1 ++ l2).dropWhile p = l2.dropWhile p := by
  induction l1 with
  | nil => simp
  | cons a t ih =>
    simp only [List.all_cons, Bool.and_eq_true] at h
    simp [List.dropWhile_cons, h.1, ih h.2]

theorem takeWhile_ne_nil_head (p : α → Bool) (l : List α)
    (h : ¬ l.takeWhile p = []) : ∃ a t, l = a :: t ∧ p a = true := by
  cases l with
  | nil => exact absurd rfl h
  | cons a t =>
    by_cases hp : p a = true
    · exact ⟨a, t, rfl, hp⟩
    · rw [List.takeWhile_cons, if_neg hp] at h
      exact absurd rfl h

theorem matchBody_eq_none (s : List Char) :
    matchBody s = none ↔ s.takeWhile Char.isDigit = [] := by
  simp only [matchBody]
  by_cases h : s.takeWhile Char.isDigit = []
  · simp [h]
  · rw [if_neg h]
    constructor
    · intro hc
      exfalso
      revert hc
      cases s.dropWhile Char.isDigit with
      | nil => simp
      | cons c r2 => by_cases hc2 : c = '.' <;> simp [hc2]
    · intro hc
      exact absurd hc h

theorem matchBody_some (s m : List Char) (h : matchBody s = some m) :
    ∃ ds, ds = s.takeWhile Char.isDigit ∧ ds ≠ [] ∧ ds.all Char.isDigit = true ∧
      (m = ds ∨ ∃ r2, s.dropWhile Char.isDigit = '.' :: r2 ∧
        m = ds ++ '.' :: r2.takeWhile Char.isDigit ∧
        (r2.takeWhile Char.isDigit).all Char.isDigit = true) := by
  simp only [matchBody] at h
  by_cases hds : s.takeWhile Char.isDigit = []
  · rw [if_pos hds] at h
    cases h
  · rw [if_neg hds] at h
    refine ⟨s.takeWhile Char.isDigit, rfl, hds, takeWhile_all _ _, ?_⟩
    cases hdp : s.dropWhile Char.isDigit with
    | nil =>
      rw [hdp] at h
      simp only [Option.some.injEq] at h
      exact Or.inl h.symm
    | cons c r2 =>
      simp only [hdp] at h
      by_cases hc : c = '.'
      · rw [if_pos hc] at h
        simp only [Option.some.injEq] at h
        subst hc
        exact Or.inr ⟨r2, rfl, h.symm, takeWhile_all _ _⟩
      · rw [if_neg hc] at h
        simp only [Option.some.injEq] at h
        exact Or.inl h.symm

theorem isEmpty_false_of_ne_nil (l : List α) (h : l ≠ []) : l.isEmpty = false := by
  cases l with
  | nil => exact absurd rfl h
  | cons a t => rfl

theorem matchBody_numBody (s m : List Char) (h : matchBody s = some m) :
    numBody m = true ∧ ∃ d mt, m = d :: mt ∧ d.isDigit = true := by
  rcases matchBody_some s m h with ⟨ds, hds, hne, hall, hcase⟩
  have hdshead : ∃ d dt, ds = d :: dt ∧ d.isDigit = true := by
    cases hd : ds with
    | nil => exact absurd hd hne
    | cons d dt =>
      refine ⟨d, dt, rfl, ?_⟩
      have : ds.all Char.isDigit = true := hall
      rw [hd] at this
      simp only [List.all_cons, Bool.and_eq_true] at this
      exact this.1
  rcases hdshead with ⟨d, dt, hdd, hdig⟩
  rcases hcase with rfl | ⟨r2, hdp, rfl, halltw⟩
  · constructor
    · unfold numBody
      rw [takeWhile_eq_self _ _ hall, dropWhile_eq_nil _ _ hall]
      simp [isEmpty_false_of_ne_nil _ hne]
    · exact ⟨d, dt, hdd, hdig⟩
  · constructor
    · unfold numBody
      rw [takeWhile_append_all _ _ _ hall, dropWhile_append_all _ _ _ hall]
      rw [List.takeWhile_cons, List.dropWhile_cons]
      rw [if_neg (by decide), if_neg (by decide)]
      simp [isEmpty_false_of_ne_nil _ hne, halltw]
    · exact ⟨d, dt ++ '.' :: r2.takeWhile Char.isDigit, by rw [hdd]; rfl, hdig⟩

theorem matchBody_some_any_digit (s m : List Char) (h : matchBody s = some m) :
    s.any Char.isDigit = true := by
  have hne : ¬ s.takeWhile Char.isDigit = [] := by
    intro hc
    rw [(matchBody_eq_none s).mpr hc] at h
    cases h
  rcases takeWhile_ne_nil_head _ _ hne with ⟨a, t, rfl, ha⟩
  simp [List.any_cons, ha]

theorem matchNumAt_shape (s m : List Char) (h : matchNumAt s = some m) :
    (∃ sgn b, isSign sgn = true ∧ m = sgn :: b ∧ numBody b = true ∧
       ∃ d bt, b = d :: bt ∧ d.isDigit = true) ∨
    (numBody m = true ∧ ∃ d mt, m = d :: mt ∧ d.isDigit = true) := by
  cases s with
  | nil => cases h
  | cons c rest =>
    simp only [matchNumAt] at h
    by_cases hs : isSign c = true
    · rw [if_pos hs] at h
      rcases Option.map_eq_some'.mp h with ⟨b, hb, hmb⟩
      rcases matchBody_numBody _ _ hb with ⟨hnb, d, bt, hbd, hdd⟩
      exact Or.inl ⟨c, b, hs, hmb.symm, hnb, d, bt, hbd, hdd⟩
    · rw [if_neg hs] at h
      exact Or.inr (matchBody_numBody _ _ h)

theorem findNum_shape (s m : List Char) (h : findNum s = some m) :
    (∃ sgn b, isSign sgn = true ∧ m = sgn :: b ∧ numBody b = true ∧
       ∃ d bt, b = d :: bt ∧ d.isDigit = true) ∨
    (numBody m = true ∧ ∃ d mt, m = d :: mt ∧ d.isDigit = true) := by
  induction s with
  | nil => cases h
  | cons c rest ih =>
    simp only [findNum] at h
    cases hma : matchNumAt (c :: rest) with
    | some mm =>
      rw [hma] at h
      simp only [Option.some.injEq] at h
      subst h
      exact matchNumAt_shape _ _ hma
    | none =>
      rw [hma] at h
      exact ih h

theorem findNum_some_any_digit (s m : List Char) (h : findNum s = some m) :
    s.any Char.isDigit = true := by
  induction s with
  | nil => cases h
  | cons c rest ih =>
    simp only [findNum] at h
    cases hma : matchNumAt (c :: rest) with
    | none =>
      rw [hma] at h
      have := ih h
      simp [List.any_cons, this]
    | some mm =>
      simp only [matchNumAt] at hma
      by_cases hs : isSign c = true
      · rw [if_pos hs] at hma
        rcases Option.map_eq_some'.mp hma with ⟨b, hb, _⟩
        have := matchBody_some_any_digit _ _ hb
        simp [List.any_cons, this]
      · rw [if_neg hs] at hma
        exact matchBody_some_any_digit _ _ hma

theorem findNum_isSome_of_digit (s : List Char) (h : s.any Char.isDigit = true) :
    ∃ m, findNum s = some m := by
  induction s with
  | nil => simp at h
  | cons c rest ih =>
    cases hma : matchNumAt (c :: rest) with
    | some m => exact ⟨m, by simp [findNum, hma]⟩
    | none =>
      have hcd : c.isDigit = false := by
        by_contra hcd1
        have hcd2 : c.isDigit = true := by
          revert hcd1
          cases c.isDigit <;> simp
        have hns : isSign c = false := digit_not_sign c hcd2
        have hmb : matchNumAt (c :: rest) = matchBody (c :: rest) := by
          simp [matchNumAt, hns]
        rw [hmb] at hma
        have htw := (matchBody_eq_none _).mp hma
        rw [List.takeWhile_cons, if_pos hcd2] at htw
        cases htw
      have hrest : rest.any Char.isDigit = true := by
        simp only [List.any_cons, hcd, Bool.false_or] at h
        exact h
      rcases ih hrest with ⟨m, hm⟩
      exact ⟨m, by simp [findNum, hma, hm]⟩

theorem any_digit_dropWhile_space (s : List Char) :
    (s.dropWhile isSpaceChar).any Char.isDigit = s.any Char.isDigit := by
  induction s with
  | nil => rfl
  | cons c t ih =>
    by_cases hc : isSpaceChar c = true
    · rw [List.dropWhile_cons, if_pos hc, ih]
      simp [List.any_cons, space_not_digit c hc]
    · rw [List.dropWhile_cons, if_neg hc]

theorem any_digit_pyStrip (s : List Char) :
    (pyStrip s).any Char.isDigit = s.any Char.isDigit := by
  unfold pyStrip
  rw [List.any_reverse, any_digit_dropWhile_space, List.any_reverse,
    any_digit_dropWhile_space]

theorem extract_number_token_isSome_of_digit (t : List Char)
    (h : t.any Char.isDigit = true) : ∃ tok, extract_number_token t = some tok := by
  have hstrip : (pyStrip t).any Char.isDigit = true := by
    rw [any_digit_pyStrip]; exact h
  simp only [extract_number_token]
  rw [if_neg (by simp [hstrip])]
  rcases findNum_isSome_of_digit _ hstrip with ⟨m, hm⟩
  simp only [hm]
  by_cases hfix : (pyStrip t).contains '+' = true ∧ ¬ m.head? = some '+'
  · exact ⟨_, by rw [if_pos hfix]⟩
  · exact ⟨_, by rw [if_neg hfix]⟩

theorem extract_number_token_shape (t tok : List Char)
    (h : extract_number_token t = some tok) :
    isNumToken tok = true ∧ tok ≠ [] := by
  simp only [extract_number_token] at h
  by_cases hd : (pyStrip t).any Char.isDigit = false
  · rw [if_pos hd] at h
    cases h
  · rw [if_neg hd] at h
    cases hf : findNum (pyStrip t) with
    | none =>
      rw [hf] at h
      cases h
    | some m =>
      simp only [hf] at h
      have hsh := findNum_shape _ _ hf
      by_cases hfix : (pyStrip t).contains '+' = true ∧ ¬ m.head? = some '+'
      · rw [if_pos hfix] at h
        simp only [Option.some.injEq] at h
        subst h
        rcases hsh with ⟨sgn, b, hsgn, hm, hnb, d, bt, hbd, hdd⟩ | ⟨hnb, d, mt, hmd, hdd⟩
        · subst hm
          have hdrop : (sgn :: b).dropWhile isSign = b := by
            rw [List.dropWhile_cons, if_pos hsgn, hbd, List.dropWhile_cons,
              if_neg (by simp [digit_not_sign d hdd])]
          rw [hdrop]
          constructor
          · show isNumToken ('+' :: b) = true
            simp only [isNumToken]
            rw [if_pos (by decide)]
            exact hnb
          · simp
        · subst hmd
          have hdrop : (d :: mt).dropWhile isSign = d :: mt := by
            rw [List.dropWhile_cons, if_neg (by simp [digit_not_sign d hdd])]
          rw [hdrop]
          constructor
          · show isNumToken ('+' :: d :: mt) = true
            simp only [isNumToken]
            rw [if_pos (by decide)]
            exact hnb
          · simp
      · rw [if_neg hfix] at h
        simp only [Option.some.injEq] at h
        subst h
        rcases hsh with ⟨sgn, b, hsgn, hm, hnb, d, bt, hbd, hdd⟩ | ⟨hnb, d, mt, hmd, hdd⟩
        · subst hm
          constructor
          · simp only [isNumToken]
            rw [if_pos hsgn]
            exact hnb
          · simp
        · subst hmd
          constructor
          · simp only [isNumToken]
            rw [if_neg (by simp [digit_not_sign d hdd])]
            exact hnb
          · simp

theorem candLE_stripConf (a b : Candidate) :
    candLE (stripConf a) (stripConf b) = candLE a b := rfl

theorem firstMin_map (f : α → α) (le : α → α → Bool)
    (hf : ∀ a b, le (f a) (f b) = le a b) (l : List α) :
    firstMin le (l.map f) = (firstMin le l).map f := by
  induction l with
  | nil => rfl
  | cons a t ih =>
    simp only [List.map_cons, firstMin, ih]
    cases hm : firstMin le t with
    | none => simp
    | some m =>
      simp only [Option.map_some']
      by_cases h : le a m = true <;> simp [h, hf]

theorem mkCandidate_stripConf (bc : ℚ × ℚ) (ed : Bool) (a b : Detection)
    (hb : a.bbox = b.bbox) (ht : a.text = b.text) :
    (mkCandidate bc ed a).map stripConf = (mkCandidate bc ed b).map stripConf := by
  unfold mkCandidate
  rw [hb, ht]
  cases extract_number_token b.text <;> rfl

theorem candidatesOf_stripConf (l1 l2 : List Detection) (bc : ℚ × ℚ) (ed : Bool)
    (h : List.Forall₂ (fun a b => a.bbox = b.bbox ∧ a.text = b.text) l1 l2) :
    (candidatesOf l1 bc ed).map stripConf = (candidatesOf l2 bc ed).map stripConf := by
  induction h with
  | nil => rfl
  | @cons a b t1 t2 hd htl ih =>
    unfold candidatesOf at ih ⊢
    simp only [List.filterMap_cons]
    have hmk := mkCandidate_stripConf bc ed a b hd.1 hd.2
    cases hma : mkCandidate bc ed a with
    | none =>
      cases hmb : mkCandidate bc ed b with
      | none => exact ih
      | some c2 =>
        rw [hma, hmb] at hmk
        cases hmk
    | some c1 =>
      cases hmb : mkCandidate bc ed b with
      | none =>
        rw [hma, hmb] at hmk
        cases hmk
      | some c2 =>
        rw [hma, hmb] at hmk
        simp only [Option.map_some', Option.some.injEq] at hmk
        simp [hmk, ih]

theorem extract_conf_irrelevant (l1 l2 : List Detection) (bc : ℚ × ℚ) (ed : Bool)
    (h : List.Forall₂ (fun a b => a.bbox = b.bbox ∧ a.text = b.text) l1 l2) :
    extract_best_number l1 bc ed = extract_best_number l2 bc ed := by
  have hmap := candidatesOf_stripConf l1 l2 bc ed h
  have hf1 := firstMin_map stripConf candLE (fun a b => rfl) (candidatesOf l1 bc ed)
  have hf2 := firstMin_map stripConf candLE (fun a b => rfl) (candidatesOf l2 bc ed)
  have hkey : (firstMin candLE (candidatesOf l1 bc ed)).map stripConf
      = (firstMin candLE (candidatesOf l2 bc ed)).map stripConf := by
    rw [← hf1, ← hf2, hmap]
  cases hx : firstMin candLE (candidatesOf l1 bc ed) with
  | none =>
    cases hy : firstMin candLE (candidatesOf l2 bc ed) with
    | none =>
      rw [extract_eq, extract_eq, hx, hy]
    | some c =>
      rw [hx, hy] at hkey
      cases hkey
  | some c =>
    cases hy : firstMin candLE (candidatesOf l2 bc ed) with
    | none =>
      rw [hx, hy] at hkey
      cases hkey
    | some c2 =>
      rw [hx, hy] at hkey
      simp only [Option.map_some', Option.some.injEq] at hkey
      have hns := congrArg Candidate.num_str hkey
      rw [extract_eq, extract_eq, hx, hy]
      exact hns

theorem validate_metric_ok_iff (ms : List (String × MetricConfig)) (m : String) :
    validate_metric ms m = Except.ok () ↔ goodMetric ms m := by
  unfold validate_metric goodMetric
  cases hl : ms.lookup m with
  | none => simp
  | some mc =>
    cases hb : mc.bbox with
    | none => simp [hb]
    | some b =>
      by_cases hlen : b.length = 4
      · simp [hb, hlen]
      · simp [hb, hlen]

theorem validate_metrics_ok_iff (ms : List (String × MetricConfig)) (L : List String) :
    validate_metrics ms L = Except.ok () ↔
      ∀ m ∈ L, validate_metric ms m = Except.ok () := by
  induction L with
  | nil => simp [validate_metrics]
  | cons m rest ih =>
    simp only [validate_metrics]
    cases hv : validate_metric ms m with
    | error e =>
      constructor
      · intro hc
        exact Except.noConfusion hc
      · intro hall
        have := hall m (List.mem_cons_self m rest)
        rw [hv] at this
        exact Except.noConfusion this
    | ok u =>
      cases u
      constructor
      · intro hall m2 hm2
        rcases List.mem_cons.mp hm2 with rfl | hm2
        · exact hv
        · exact (ih.mp hall) m2 hm2
      · intro hall
        exact ih.mpr (fun m2 hm2 => hall m2 (List.mem_cons_of_mem m hm2))

theorem load_config_ok_iff (cfg : Config) (ms : List (String × MetricConfig))
    (h : cfg.metrics = some ms) :
    load_config cfg = Except.ok cfg ↔ ∀ m ∈ required_metrics, goodMetric ms m := by
  unfold load_config
  simp only [h]
  cases hv : validate_metrics ms required_metrics with
  | error e =>
    constructor
    · intro hc
      exact Except.noConfusion hc
    · intro hall
      exfalso
      have hok : validate_metrics ms required_metrics = Except.ok () :=
        (validate_metrics_ok_iff ms required_metrics).mpr
          (fun m hm => (validate_metric_ok_iff ms m).mpr (hall m hm))
      rw [hv] at hok
      exact Except.noConfusion hok
  | ok u =>
    cases u
    constructor
    · intro _ m hm
      exact (validate_metric_ok_iff ms m).mp
        ((validate_metrics_ok_iff ms required_metrics).mp hv m hm)
    · intro _
      rfl

theorem load_config_ok_eq (cfg c2 : Config) (h : load_config cfg = Except.ok c2) :
    c2 = cfg := by
  unfold load_config at h
  cases hm : cfg.metrics with
  | none =>
    rw [hm] at h
    exact Except.noConfusion h
  | some ms =>
    simp only [hm] at h
    cases hv : validate_metrics ms required_metrics with
    | error e =>
      simp only [hv] at h
      exact Except.noConfusion h
    | ok u =>
      cases u
      simp only [hv] at h
      exact (Except.ok.inj h).symm

/-- C4: for every detections list in which no detection yields a numeric token
(including the empty list), the Candidate Extractor returns the empty string
without raising any error; token-less detections are silently excluded. -/
theorem claim4_no_candidate_empty_result (dets : List Detection) (center : ℚ × ℚ)
    (ed : Bool) (h : ∀ d ∈ dets, extract_number_token d.text = none) :
    extract_best_number dets center ed = [] := by
  have hcs : candidatesOf dets center ed = [] := by
    unfold candidatesOf
    apply List.filterMap_eq_nil_iff.mpr
    intro d hd
    unfold mkCandidate
    rw [h d hd]
    rfl
  rw [extract_eq, hcs]
  rfl

theorem claim4_no_candidate_empty_result_witness :
    extract_best_number [] (0, 0) false = [] ∧
    extract_best_number [⟨[(0, 0), (1, 0), (1, 1), (0, 1)], "ft".data, 1⟩] (5, 5) false
      = [] :=
  ⟨claim4_no_candidate_empty_result [] (0, 0) false (by intro d hd; cases hd),
   claim4_no_candidate_empty_result _ (5, 5) false
     (by
       intro d hd
       rcases List.mem_singleton.mp hd with rfl
       decide)⟩

/-- C5: for every detection text containing a literal plus sign anywhere, if the
first regex match does not begin with a plus, the returned token is a plus
prepended to the match with its leading sign characters stripped. -/
theorem claim5_sign_reconciliation (text m : List Char)
    (hplus : (pyStrip text).contains '+' = true)
    (hm : findNum (pyStrip text) = some m)
    (hns : ¬ m.head? = some '+') :
    extract_number_token text = some ('+' :: m.dropWhile isSign) := by
  have hdig : (pyStrip text).any Char.isDigit = true := findNum_some_any_digit _ _ hm
  simp only [extract_number_token]
  rw [if_neg (by simp [hdig])]
  simp only [hm]
  rw [if_pos ⟨hplus, hns⟩]

theorem claim5_sign_reconciliation_witness :
    extract_number_token ("+ 2.5 yds".data) = some ('+' :: List.dropWhile isSign ("2.5".data)) ∧
    ('+' :: List.dropWhile isSign ("2.5".data)) = "+2.5".data :=
  ⟨claim5_sign_reconciliation ("+ 2.5 yds".data) ("2.5".data)
     (by decide) (by decide) (by decide),
   by decide⟩

/-- C9: for every detection text containing at least one decimal digit, the
second rejection branch (the numeric regex failing to match) is unreachable:
the search succeeds and the detection becomes a candidate with some token. -/
theorem claim9_digit_guarantees_token (text : List Char)
    (h : text.any Char.isDigit = true) :
    findNum (pyStrip text) ≠ none ∧ ∃ tok, extract_number_token text = some tok := by
  have hstrip : (pyStrip text).any Char.isDigit = true := by
    rw [any_digit_pyStrip]
    exact h
  rcases findNum_isSome_of_digit _ hstrip with ⟨m, hm⟩
  exact ⟨by rw [hm]; simp, extract_number_token_isSome_of_digit text h⟩

theorem claim9_digit_guarantees_token_witness :
    findNum (pyStrip ("no4".data)) ≠ none ∧
    ∃ tok, extract_number_token ("no4".data) = some tok :=
  claim9_digit_guarantees_token ("no4".data) (by decide)

/-- C3: for all detections lists where the text of some detection contains a decimal
digit, the Candidate Extractor returns a non-empty string, and that string is
the token extractable from one of the input detections. -/
theorem claim3_returns_some_extractable_token (dets : List Detection)
    (center : ℚ × ℚ) (ed : Bool) (h : ∃ d ∈ dets, d.text.any Char.isDigit = true) :
    extract_best_number dets center ed ≠ [] ∧
    ∃ d ∈ dets, extract_number_token d.text = some (extract_best_number dets center ed) := by
  rcases h with ⟨d, hd, hdig⟩
  rcases extract_number_token_isSome_of_digit d.text hdig with ⟨tok, htok⟩
  have hmem : (⟨distSq (text_center d.bbox) center,
      if ed && tok.contains '.' then -10 else 0, tok, d.conf⟩ : Candidate)
      ∈ candidatesOf dets center ed := by
    unfold candidatesOf
    apply List.mem_filterMap.mpr
    refine ⟨d, hd, ?_⟩
    unfold mkCandidate
    rw [htok]
    rfl
  have hne : candidatesOf dets center ed ≠ [] := by
    intro hnil
    rw [hnil] at hmem
    cases hmem
  have hfm : ∃ m, firstMin candLE (candidatesOf dets center ed) = some m := by
    cases hcs : candidatesOf dets center ed with
    | nil => exact absurd hcs hne
    | cons a t =>
      cases hm : firstMin candLE t with
      | none => exact ⟨a, by simp [firstMin, hm]⟩
      | some m =>
        by_cases hab : candLE a m = true
        · exact ⟨a, by simp [firstMin, hm, hab]⟩
        · exact ⟨m, by simp [firstMin, hm, hab]⟩
  rcases hfm with ⟨m, hfm⟩
  have hmmem : m ∈ candidatesOf dets center ed := firstMin_mem _ _ _ hfm
  rcases mem_candidatesOf _ _ _ _ hmmem with ⟨d2, hd2, hmk⟩
  rcases mkCandidate_inv _ _ _ _ hmk with ⟨n, hn, hcc⟩
  have hres : extract_best_number dets center ed = m.num_str := by
    rw [extract_eq, hfm]
  constructor
  · rw [hres, hcc]
    exact (extract_number_token_shape _ _ hn).2
  · refine ⟨d2, hd2, ?_⟩
    rw [hres, hcc]
    exact hn

theorem claim3_returns_some_extractable_token_witness :
    extract_best_number [⟨[(0, 0), (2, 0), (0, 2), (2, 2)], "ab7".data, 1⟩] (1, 1) false
      ≠ [] ∧
    ∃ d ∈ [(⟨[(0, 0), (2, 0), (0, 2), (2, 2)], "ab7".data, 1⟩ : Detection)],
      extract_number_token d.text =
        some (extract_best_number [⟨[(0, 0), (2, 0), (0, 2), (2, 2)], "ab7".data, 1⟩]
          (1, 1) false) :=
  claim3_returns_some_extractable_token _ (1, 1) false
    ⟨_, List.mem_singleton.mpr rfl, by decide⟩

/-- C10: every non-empty string returned by the Candidate Extractor is a
well-formed numeric token: an optional single leading sign, one or more
digits, an optional dot, and zero or more digits. -/
theorem claim10_output_is_numeric_token (dets : List Detection) (center : ℚ × ℚ)
    (ed : Bool) (h : extract_best_number dets center ed ≠ []) :
    isNumToken (extract_best_number dets center ed) = true := by
  cases hfm : firstMin candLE (candidatesOf dets center ed) with
  | none =>
    have hnil : extract_best_number dets center ed = [] := by
      rw [extract_eq, hfm]
    exact absurd hnil h
  | some m =>
    have hres : extract_best_number dets center ed = m.num_str := by
      rw [extract_eq, hfm]
    have hmmem : m ∈ candidatesOf dets center ed := firstMin_mem _ _ _ hfm
    rcases mem_candidatesOf _ _ _ _ hmmem with ⟨d, _, hmk⟩
    rcases mkCandidate_inv _ _ _ _ hmk with ⟨n, hn, hcc⟩
    rw [hres, hcc]
    exact (extract_number_token_shape _ _ hn).1

theorem firstMin_pair (a b : Candidate) (hab : candLE a b = false) :
    firstMin candLE [a, b] = some b := by
  simp [firstMin, hab]

theorem candLE_false_of_score_lt (a b : Candidate) (ha : 0 ≤ a.distSq)
    (hb : 0 ≤ b.distSq) (h : b.score < a.score) : candLE a b = false := by
  cases hc : candLE a b with
  | false => rfl
  | true =>
    have := (candLE_iff a b ha hb).mp hc
    linarith

/-- C1: with decimalExpected true, a candidate whose token contains a dot is
scored distance minus 10 while one without is scored distance, so the
decimal-bearing candidate wins whenever its distance exceeds the distance of the
other one by less than 10. -/
theorem claim1_decimal_bonus_preference (d1 d2 : Detection) (center : ℚ × ℚ)
    (t1 t2 : List Char)
    (h1 : extract_number_token d1.text = some t1)
    (hnd : ¬ '.' ∈ t1)
    (h2 : extract_number_token d2.text = some t2)
    (hd : '.' ∈ t2)
    (hlt : Real.sqrt ((distSq (text_center d2.bbox) center : ℚ) : ℝ) <
           Real.sqrt ((distSq (text_center d1.bbox) center : ℚ) : ℝ) + 10) :
    (∃ c1 c2, mkCandidate center true d1 = some c1 ∧ mkCandidate center true d2 = some c2 ∧
       c1.score = c1.distance ∧ c2.score = c2.distance - 10) ∧
    extract_best_number [d1, d2] center true = t2 := by
  have hc1 : mkCandidate center true d1 =
      some ⟨distSq (text_center d1.bbox) center, 0, t1, d1.conf⟩ := by
    unfold mkCandidate
    rw [h1]
    simp [hnd]
  have hc2 : mkCandidate center true d2 =
      some ⟨distSq (text_center d2.bbox) center, -10, t2, d2.conf⟩ := by
    unfold mkCandidate
    rw [h2]
    simp [hd]
  have hcands : candidatesOf [d1, d2] center true =
      [⟨distSq (text_center d1.bbox) center, 0, t1, d1.conf⟩,
       ⟨distSq (text_center d2.bbox) center, -10, t2, d2.conf⟩] := by
    unfold candidatesOf
    simp [List.filterMap_cons, hc1, hc2]
  have hlt2 : Candidate.score ⟨distSq (text_center d2.bbox) center, -10, t2, d2.conf⟩ <
      Candidate.score ⟨distSq (text_center d1.bbox) center, 0, t1, d1.conf⟩ := by
    simp only [Candidate.score, Candidate.distance]
    push_cast
    linarith
  constructor
  · refine ⟨_, _, hc1, hc2, ?_, ?_⟩
    · simp only [Candidate.score, Candidate.distance]
      push_cast
      ring
    · simp only [Candidate.score, Candidate.distance]
      push_cast
      ring
  · rw [extract_eq, hcands,
      firstMin_pair _ _ (candLE_false_of_score_lt _ _ (distSq_nonneg _ _) (distSq_nonneg _ _) hlt2)]

theorem claim1_decimal_bonus_preference_witness :
    extract_best_number
      [⟨[(12, 17), (12, 17), (12, 17), (12, 17)], "123".data, 9/10⟩,
       ⟨[(12, 20), (12, 20), (12, 20), (12, 20)], "45.6".data, 1/2⟩] (12, 12) true
      = "45.6".data := by
  have e1 : distSq (text_center [((12 : ℚ), (17 : ℚ)), (12, 17), (12, 17), (12, 17)])
      (12, 12) = 25 := by
    norm_num [distSq, text_center]
  have e2 : distSq (text_center [((12 : ℚ), (20 : ℚ)), (12, 20), (12, 20), (12, 20)])
      (12, 12) = 64 := by
    norm_num [distSq, text_center]
  have hlt : Real.sqrt ((distSq
        (text_center [((12 : ℚ), (20 : ℚ)), (12, 20), (12, 20), (12, 20)]) (12, 12) : ℚ) : ℝ) <
      Real.sqrt ((distSq
        (text_center [((12 : ℚ), (17 : ℚ)), (12, 17), (12, 17), (12, 17)]) (12, 12) : ℚ) : ℝ)
        + 10 := by
    rw [e1, e2]
    have h64 : Real.sqrt ((64 : ℚ) : ℝ) = 8 := by
      rw [show ((64 : ℚ) : ℝ) = (8 : ℝ) ^ 2 by norm_num, Real.sqrt_sq (by norm_num)]
    have h25 : Real.sqrt ((25 : ℚ) : ℝ) = 5 := by
      rw [show ((25 : ℚ) : ℝ) = (5 : ℝ) ^ 2 by norm_num, Real.sqrt_sq (by norm_num)]
    rw [h64, h25]
    norm_num
  have h := claim1_decimal_bonus_preference
    ⟨[(12, 17), (12, 17), (12, 17), (12, 17)], "123".data, 9/10⟩
    ⟨[(12, 20), (12, 20), (12, 20), (12, 20)], "45.6".data, 1/2⟩
    (12, 12) ("123".data) ("45.6".data) (by decide) (by decide) (by decide) (by decide) hlt
  exact h.2

/-- C2: when the surviving candidate at position i has minimal score, every
earlier candidate scores strictly worse, and a later candidate ties it
exactly, the extractor returns the token of the candidate at position i: the
sort is stable and uses the score as its only key, so the earliest of the
tied minimal candidates wins. -/
theorem claim2_stable_tie_break (dets : List Detection) (center : ℚ × ℚ) (ed : Bool)
    (cands : List Candidate) (hc : cands = candidatesOf dets center ed)
    (i j : ℕ) (hi : i < cands.length) (hj : j < cands.length) (hij : i < j)
    (heq : (cands.get ⟨i, hi⟩).score = (cands.get ⟨j, hj⟩).score)
    (hmin : ∀ k (hk : k < cands.length),
      (cands.get ⟨i, hi⟩).score ≤ (cands.get ⟨k, hk⟩).score)
    (hfirst : ∀ k (hk : k < i),
      ¬ (cands.get ⟨k, by omega⟩).score ≤ (cands.get ⟨i, hi⟩).score) :
    extract_best_number dets center ed = (cands.get ⟨i, hi⟩).num_str := by
  subst hc
  have hfm : firstMin candLE (candidatesOf dets center ed)
      = some ((candidatesOf dets center ed).get ⟨i, hi⟩) := by
    apply firstMin_eq
    · intro b hb
      rcases List.mem_iff_get.mp hb with ⟨⟨k, hk⟩, rfl⟩
      exact (candLE_iff _ _
        (candidatesOf_distSq_nonneg _ _ _ _ (List.get_mem _ _ _))
        (candidatesOf_distSq_nonneg _ _ _ _ (List.get_mem _ _ _))).mpr (hmin k hk)
    · intro k hk
      have hns := hfirst k hk
      cases hcle : candLE ((candidatesOf dets center ed).get ⟨k, by omega⟩)
          ((candidatesOf dets center ed).get ⟨i, hi⟩) with
      | false => rfl
      | true =>
        exact absurd ((candLE_iff _ _
          (candidatesOf_distSq_nonneg _ _ _ _ (List.get_mem _ _ _))
          (candidatesOf_distSq_nonneg _ _ _ _ (List.get_mem _ _ _))).mp hcle) hns
  rw [extract_eq, hfm]

theorem claim2_stable_tie_break_witness :
    extract_best_number
      [⟨[(15, 16), (15, 16), (15, 16), (15, 16)], "7".data, 1⟩,
       ⟨[(16, 15), (16, 15), (16, 15), (16, 15)], "8".data, 1⟩] (12, 12) false
      = "7".data := by
  have hc : ([⟨25, 0, "7".data, 1⟩, ⟨25, 0, "8".data, 1⟩] : List Candidate)
      = candidatesOf
        [⟨[(15, 16), (15, 16), (15, 16), (15, 16)], "7".data, 1⟩,
         ⟨[(16, 15), (16, 15), (16, 15), (16, 15)], "8".data, 1⟩] (12, 12) false := by
    norm_num +decide [candidatesOf, mkCandidate, extract_number_token, pyStrip, findNum,
      matchNumAt, matchBody, isSign, text_center, distSq,
      List.takeWhile_cons, List.dropWhile_cons, List.filterMap_cons]
  have h := claim2_stable_tie_break
    [⟨[(15, 16), (15, 16), (15, 16), (15, 16)], "7".data, 1⟩,
     ⟨[(16, 15), (16, 15), (16, 15), (16, 15)], "8".data, 1⟩] (12, 12) false
    ([⟨25, 0, "7".data, 1⟩, ⟨25, 0, "8".data, 1⟩] : List Candidate) hc
    0 1 (by norm_num) (by norm_num) (by norm_num)
    rfl
    (by
      intro k hk
      have hk2 : k < 2 := by simpa using hk
      interval_cases k
      · exact le_refl _
      · exact le_of_eq rfl)
    (by
      intro k hk
      exact absurd hk (Nat.not_lt_zero k))
  exact h

/-- C6: for the two-detection input whose quadrilateral corner points average
to (10,10) with text 12 and to (50,50) with text 1.2, with region center
(12,12), the text-centers are the corner means, the distances are about 2.83
and about 53.74, and the extractor returns 12 for both flag values: the
decimal bonus is additive (score about 43.74 for the far candidate), not an
override. -/
theorem claim6_pair_false (bb1 bb2 : List (ℚ × ℚ)) (cf1 cf2 : ℚ)
    (h1 : text_center bb1 = (10, 10)) (h2 : text_center bb2 = (50, 50)) :
    extract_best_number [⟨bb1, "12".data, cf1⟩, ⟨bb2, "1.2".data, cf2⟩] (12, 12) false
      = "12".data := by
  have e1 : distSq (text_center bb1) (12, 12) = 8 := by
    rw [h1]; norm_num [distSq]
  have e2 : distSq (text_center bb2) (12, 12) = 2888 := by
    rw [h2]; norm_num [distSq]
  have hmk1f : mkCandidate (12, 12) false ⟨bb1, "12".data, cf1⟩
      = some ⟨8, 0, "12".data, cf1⟩ := by
    unfold mkCandidate
    rw [show extract_number_token ("12".data) = some ("12".data) from by decide]
    simp [e1]
  have hmk2f : mkCandidate (12, 12) false ⟨bb2, "1.2".data, cf2⟩
      = some ⟨2888, 0, "1.2".data, cf2⟩ := by
    unfold mkCandidate
    rw [show extract_number_token ("1.2".data) = some ("1.2".data) from by decide]
    simp [e2]
  have hcf : candidatesOf [⟨bb1, "12".data, cf1⟩, ⟨bb2, "1.2".data, cf2⟩] (12, 12) false
      = [⟨8, 0, "12".data, cf1⟩, ⟨2888, 0, "1.2".data, cf2⟩] := by
    unfold candidatesOf
    simp [List.filterMap_cons, hmk1f, hmk2f]
  have hlef : candLE (⟨8, 0, "12".data, cf1⟩ : Candidate) ⟨2888, 0, "1.2".data, cf2⟩
      = true := by
    show sqrtAddLE 8 (0 - 0) 2888 = true
    norm_num [sqrtAddLE]
  have hfm : firstMin candLE
      [(⟨8, 0, "12".data, cf1⟩ : Candidate), ⟨2888, 0, "1.2".data, cf2⟩]
      = some ⟨8, 0, "12".data, cf1⟩ := by
    simp [firstMin, hlef]
  rw [extract_eq, hcf, hfm]

theorem claim6_pair_true (bb1 bb2 : List (ℚ × ℚ)) (cf1 cf2 : ℚ)
    (h1 : text_center bb1 = (10, 10)) (h2 : text_center bb2 = (50, 50)) :
    extract_best_number [⟨bb1, "12".data, cf1⟩, ⟨bb2, "1.2".data, cf2⟩] (12, 12) true
      = "12".data := by
  have e1 : distSq (text_center bb1) (12, 12) = 8 := by
    rw [h1]; norm_num [distSq]
  have e2 : distSq (text_center bb2) (12, 12) = 2888 := by
    rw [h2]; norm_num [distSq]
  have hd1 : ¬ '.' ∈ "12".data := by decide
  have hd2 : '.' ∈ "1.2".data := by decide
  have hmk1t : mkCandidate (12, 12) true ⟨bb1, "12".data, cf1⟩
      = some ⟨8, 0, "12".data, cf1⟩ := by
    unfold mkCandidate
    rw [show extract_number_token ("12".data) = some ("12".data) from by decide]
    simp [hd1, e1]
  have hmk2t : mkCandidate (12, 12) true ⟨bb2, "1.2".data, cf2⟩
      = some ⟨2888, -10, "1.2".data, cf2⟩ := by
    unfold mkCandidate
    rw [show extract_number_token ("1.2".data) = some ("1.2".data) from by decide]
    simp [hd2, e2]
  have hct : candidatesOf [⟨bb1, "12".data, cf1⟩, ⟨bb2, "1.2".data, cf2⟩] (12, 12) true
      = [⟨8, 0, "12".data, cf1⟩, ⟨2888, -10, "1.2".data, cf2⟩] := by
    unfold candidatesOf
    simp [List.filterMap_cons, hmk1t, hmk2t]
  have hlet : candLE (⟨8, 0, "12".data, cf1⟩ : Candidate) ⟨2888, -10, "1.2".data, cf2⟩
      = true := by
    show sqrtAddLE 8 (-10 - 0) 2888 = true
    norm_num [sqrtAddLE]
  have hfm : firstMin candLE
      [(⟨8, 0, "12".data, cf1⟩ : Candidate), ⟨2888, -10, "1.2".data, cf2⟩]
      = some ⟨8, 0, "12".data, cf1⟩ := by
    simp [firstMin, hlet]
  rw [extract_eq, hct, hfm]

theorem sqrt_q8_bounds : 2.82 < Real.sqrt ((8 : ℚ) : ℝ) ∧ Real.sqrt ((8 : ℚ) : ℝ) < 2.83 := by
  rw [show ((8 : ℚ) : ℝ) = 8 by norm_num]
  constructor
  · calc (2.82 : ℝ) = Real.sqrt (2.82 ^ 2) := (Real.sqrt_sq (by norm_num)).symm
    _ < Real.sqrt 8 := Real.sqrt_lt_sqrt (by norm_num) (by norm_num)
  · calc Real.sqrt 8 < Real.sqrt (2.83 ^ 2) := Real.sqrt_lt_sqrt (by norm_num) (by norm_num)
    _ = 2.83 := Real.sqrt_sq (by norm_num)

theorem sqrt_q2888_bounds :
    53.74 < Real.sqrt ((2888 : ℚ) : ℝ) ∧ Real.sqrt ((2888 : ℚ) : ℝ) < 53.75 := by
  rw [show ((2888 : ℚ) : ℝ) = 2888 by norm_num]
  constructor
  · calc (53.74 : ℝ) = Real.sqrt (53.74 ^ 2) := (Real.sqrt_sq (by norm_num)).symm
    _ < Real.sqrt 2888 := Real.sqrt_lt_sqrt (by norm_num) (by norm_num)
  · calc Real.sqrt 2888 < Real.sqrt (53.75 ^ 2) := Real.sqrt_lt_sqrt (by norm_num) (by norm_num)
    _ = 53.75 := Real.sqrt_sq (by norm_num)

/-- C6: for the two-detection input whose quadrilateral corner points average
to (10,10) with text 12 and to (50,50) with text 1.2, with region center
(12,12), the text-centers are the corner means, the distances are about 2.83
and about 53.74, and the extractor returns 12 for both flag values: the
decimal bonus is additive (score about 43.74 for the far candidate), not an
override. -/
theorem claim6_end_to_end (bb1 bb2 : List (ℚ × ℚ)) (cf1 cf2 : ℚ)
    (h1 : text_center bb1 = (10, 10)) (h2 : text_center bb2 = (50, 50)) :
    distSq (text_center bb1) (12, 12) = 8 ∧
    distSq (text_center bb2) (12, 12) = 2888 ∧
    (2.82 < Real.sqrt ((8 : ℚ) : ℝ) ∧ Real.sqrt ((8 : ℚ) : ℝ) < 2.83) ∧
    (53.74 < Real.sqrt ((2888 : ℚ) : ℝ) ∧ Real.sqrt ((2888 : ℚ) : ℝ) < 53.75) ∧
    (43.74 < Real.sqrt ((2888 : ℚ) : ℝ) - 10 ∧ Real.sqrt ((2888 : ℚ) : ℝ) - 10 < 43.75) ∧
    extract_best_number [⟨bb1, "12".data, cf1⟩, ⟨bb2, "1.2".data, cf2⟩] (12, 12) false
      = "12".data ∧
    extract_best_number [⟨bb1, "12".data, cf1⟩, ⟨bb2, "1.2".data, cf2⟩] (12, 12) true
      = "12".data := by
  refine ⟨by rw [h1]; norm_num [distSq], by rw [h2]; norm_num [distSq],
    sqrt_q8_bounds, sqrt_q2888_bounds,
    ⟨by linarith [sqrt_q2888_bounds.1], by linarith [sqrt_q2888_bounds.2]⟩,
    claim6_pair_false bb1 bb2 cf1 cf2 h1 h2,
    claim6_pair_true bb1 bb2 cf1 cf2 h1 h2⟩

theorem claim6_end_to_end_witness :
    extract_best_number
      [⟨[(8, 8), (12, 8), (8, 12), (12, 12)], "12".data, 9/10⟩,
       ⟨[(48, 48), (52, 48), (48, 52), (52, 52)], "1.2".data, 1/2⟩] (12, 12) false
      = "12".data ∧
    extract_best_number
      [⟨[(8, 8), (12, 8), (8, 12), (12, 12)], "12".data, 9/10⟩,
       ⟨[(48, 48), (52, 48), (48, 52), (52, 52)], "1.2".data, 1/2⟩] (12, 12) true
      = "12".data := by
  have h := claim6_end_to_end
    [(8, 8), (12, 8), (8, 12), (12, 12)] [(48, 48), (52, 48), (48, 52), (52, 52)]
    (9/10) (1/2) (by norm_num [text_center]) (by norm_num [text_center])
  exact ⟨h.2.2.2.2.2.1, h.2.2.2.2.2.2⟩

/-- C7: two detections lists that agree on locations and texts in the same
order, and differ only in confidences, produce the same extracted string:
confidence never influences which candidate is selected. -/
theorem claim7_confidence_never_influences (l1 l2 : List Detection)
    (center : ℚ × ℚ) (ed : Bool)
    (h : List.Forall₂ (fun a b => a.bbox = b.bbox ∧ a.text = b.text) l1 l2) :
    extract_best_number l1 center ed = extract_best_number l2 center ed :=
  extract_conf_irrelevant l1 l2 center ed h

theorem claim7_confidence_never_influences_witness :
    extract_best_number [⟨[(0, 0), (2, 0), (0, 2), (2, 2)], "3.1".data, 9/10⟩] (1, 1) true
      = extract_best_number [⟨[(0, 0), (2, 0), (0, 2), (2, 2)], "3.1".data, 1/20⟩]
        (1, 1) true :=
  claim7_confidence_never_influences _ _ (1, 1) true
    (List.Forall₂.cons ⟨rfl, rfl⟩ List.Forall₂.nil)

/-- C8: configuration loading fails with an error exactly when some required
metric is absent, lacks a bbox, or has a bbox whose length is not 4;
otherwise it succeeds and returns the configuration unchanged. -/
theorem claim8_config_validation (cfg : Config)
    (ms : List (String × MetricConfig)) (h : cfg.metrics = some ms) :
    (load_config cfg = Except.ok cfg ↔ ∀ m ∈ required_metrics, goodMetric ms m) ∧
    (∀ c2, load_config cfg = Except.ok c2 → c2 = cfg) ∧
    ((∃ m ∈ required_metrics, ¬ goodMetric ms m) →
      ∃ e, load_config cfg = Except.error e) := by
  refine ⟨load_config_ok_iff cfg ms h,
    fun c2 hc2 => load_config_ok_eq cfg c2 hc2, ?_⟩
  intro hbad
  cases hl : load_config cfg with
  | error e => exact ⟨e, rfl⟩
  | ok c2 =>
    have hc2 : c2 = cfg := load_config_ok_eq cfg c2 hl
    rw [hc2] at hl
    have hall := (load_config_ok_iff cfg ms h).mp hl
    rcases hbad with ⟨m, hm, hbadm⟩
    exact absurd (hall m hm) hbadm

theorem claim8_config_validation_witness :
    load_config ⟨some [("DISTANCE_TO_PIN", ⟨some [0, 0, 5, 5], false⟩),
      ("CARRY", ⟨some [0, 6, 5, 5], false⟩), ("FROM_PIN", ⟨some [0, 12, 5, 5], true⟩),
      ("STROKES_GAINED", ⟨some [0, 18, 5, 5], true⟩)]⟩
    = Except.ok ⟨some [("DISTANCE_TO_PIN", ⟨some [0, 0, 5, 5], false⟩),
      ("CARRY", ⟨some [0, 6, 5, 5], false⟩), ("FROM_PIN", ⟨some [0, 12, 5, 5], true⟩),
      ("STROKES_GAINED", ⟨some [0, 18, 5, 5], true⟩)]⟩ := by
  have h := claim8_config_validation
    ⟨some [("DISTANCE_TO_PIN", ⟨some [0, 0, 5, 5], false⟩),
      ("CARRY", ⟨some [0, 6, 5, 5], false⟩), ("FROM_PIN", ⟨some [0, 12, 5, 5], true⟩),
      ("STROKES_GAINED", ⟨some [0, 18, 5, 5], true⟩)]⟩
    [("DISTANCE_TO_PIN", ⟨some [0, 0, 5, 5], false⟩),
      ("CARRY", ⟨some [0, 6, 5, 5], false⟩), ("FROM_PIN", ⟨some [0, 12, 5, 5], true⟩),
      ("STROKES_GAINED", ⟨some [0, 18, 5, 5], true⟩)] rfl
  apply h.1.mpr
  intro m hm
  fin_cases hm
  · exact ⟨⟨some [0, 0, 5, 5], false⟩, [0, 0, 5, 5], by decide, rfl, rfl⟩
  · exact ⟨⟨some [0, 6, 5, 5], false⟩, [0, 6, 5, 5], by decide, rfl, rfl⟩
  · exact ⟨⟨some [0, 12, 5, 5], true⟩, [0, 12, 5, 5], by decide, rfl, rfl⟩
  · exact ⟨⟨some [0, 18, 5, 5], true⟩, [0, 18, 5, 5], by decide, rfl, rfl⟩

theorem claim10_output_is_numeric_token_witness :
    isNumToken (extract_best_number
      [⟨[(0, 0), (2, 0), (0, 2), (2, 2)], "42".data, 1⟩] (1, 1) false) = true := by
  have hmk : mkCandidate (1, 1) false ⟨[(0, 0), (2, 0), (0, 2), (2, 2)], "42".data, 1⟩
      = some ⟨0, 0, "42".data, 1⟩ := by
    unfold mkCandidate
    rw [show extract_number_token ("42".data) = some ("42".data) from by decide]
    norm_num [text_center, distSq]
  have hc : candidatesOf [⟨[(0, 0), (2, 0), (0, 2), (2, 2)], "42".data, 1⟩] (1, 1) false
      = [⟨0, 0, "42".data, 1⟩] := by
    unfold candidatesOf
    simp only [List.filterMap_cons, List.filterMap_nil, hmk]
  have he : extract_best_number
      [⟨[(0, 0), (2, 0), (0, 2), (2, 2)], "42".data, 1⟩] (1, 1) false = "42".data := by
    rw [extract_eq, hc]
    rfl
  exact claim10_output_is_numeric_token _ _ _ (by rw [he]; decide)
